import Mathlib

/-!
Verification development for the bank-reconciliation core of the
Bank-reconcilation-tool repository.

The TypeScript source is shallowly embedded as follows:

* JS numbers that hold monetary amounts are modeled as `ℚ`; the source
  rounds every amount to 2 decimal places with `Math.round(x * 100) / 100`,
  modeled exactly by `round2` below (`Math.round` on a rational is
  `⌊x + 1/2⌋`, i.e. round-half-up towards `+∞`).
* ISO date strings (`yyyy-mm-dd`) are modeled as an epoch-day integer `ℤ`;
  lexicographic comparison of ISO strings coincides with numeric
  comparison of epoch days, and `daysBetween` becomes `|d₁ - d₂|`.
* JS `Array.prototype.sort` (stable, ES2019) is modeled with
  `List.insertionSort`, which is stable.
* Strings are Lean `String`s; `toLowerCase` is modeled on the ASCII range.
-/

/-- JS `Math.round` on a rational: round half up, towards `+∞`. -/
def jsRound (q : ℚ) : ℤ := ⌊q + 1/2⌋

/-- The source's ubiquitous `Math.round(x * 100) / 100` 2-decimal rounding. -/
def round2 (q : ℚ) : ℚ := (jsRound (q * 100) : ℚ) / 100

/-- Modelled from the spec: "round to 2 decimal places using
round-half-away-from-zero".  Negative values round their half cases away
from zero (towards `-∞`), unlike `round2`. -/
def specRound2 (q : ℚ) : ℚ :=
  ((if q < 0 then -(jsRound (|q| * 100)) else jsRound (q * 100) : ℤ) : ℚ) / 100

/-- `type Source = "bank" | "cashbook"` -/
inductive Source
  | bank
  | cashbook
deriving DecidableEq, Repr

/-- A raw CSV cell: `string | number | null | undefined` (null and undefined
are not distinguished by any code path we embed). -/
inductive CellVal
  | str (s : String)
  | num (q : ℚ)
  | null
deriving DecidableEq

/- String helpers (ASCII model of JS string primitives). -/

/-- ASCII model of the character-level effect of JS `toLowerCase`. -/
def lowerChar (c : Char) : Char :=
  if 'A' ≤ c && c ≤ 'Z' then Char.ofNat (c.toNat + 32) else c

/-- ASCII model of JS `String.prototype.toLowerCase`. -/
def toLowerStr (s : String) : String := String.mk (s.data.map lowerChar)

/-- JS `haystack.includes(needle)`: substring occurrence. -/
def substrIn (needle : List Char) : List Char → Bool
  | [] => needle.isEmpty
  | c :: t => needle.isPrefixOf (c :: t) || substrIn needle t

def isDigit09 (c : Char) : Bool := '0' ≤ c && c ≤ '9'

def isWSChar (c : Char) : Bool := c.isWhitespace

/-- JS `String.prototype.trim`. -/
def trimChars (l : List Char) : List Char :=
  ((l.dropWhile isWSChar).reverse.dropWhile isWSChar).reverse

/- Column mapper (`detectMapping`). -/

inductive MapMode
  | amount
  | debitcredit
deriving DecidableEq, Repr

inductive SignConvention
  | creditPositive
  | debitPositive
deriving DecidableEq, Repr

/-- `type Mapping` from the source.  The optional string fields are modeled
as plain strings (`""` for absent), matching how `detectMapping` and its
consumers treat them (JS falsiness of `""`). -/
structure Mapping where
  mode : MapMode
  date : String
  amount : String
  debit : String
  credit : String
  description : String
  signConvention : SignConvention
deriving DecidableEq

/-- The inner `pick` closure of `detectMapping`: first candidate (in
candidate order) that occurs as a substring of some lowered header wins,
returning the original header at that index; otherwise the `fallback`
string if non-empty, otherwise the first header, otherwise `""`. -/
def pick (headers lowered : List String) (fallback : String) : List String → String
  | [] => if fallback ≠ "" then fallback else headers.headD ""
  | c :: cs =>
    match lowered.findIdx? (fun h => substrIn c.data h.data) with
    | some idx => headers.getD idx ""
    | none => pick headers lowered fallback cs

/-- `detectMapping(headers)` from the source (lines 107-123). -/
def detectMapping (headers : List String) : Mapping :=
  let lowered := headers.map toLowerStr
  let date := pick headers lowered "" ["date", "posted", "txn date", "transaction date", "value date"]
  let amount := pick headers lowered "" ["amount", "amt", "value"]
  let debit := pick headers lowered "" ["debit", "withdrawal", "dr"]
  let credit := pick headers lowered "" ["credit", "deposit", "cr"]
  let description := pick headers lowered "" ["description", "details", "narration", "memo", "payee", "particulars"]
  let mode := if amount ≠ "" then MapMode.amount else MapMode.debitcredit
  ⟨mode, date, amount, debit, credit, description, SignConvention.creditPositive⟩

/- Amount parsing (`parseAmount`). -/

/-- Digit run to a natural number. -/
def digitsToNat (l : List Char) : ℕ :=
  l.foldl (fun acc c => 10 * acc + (c.toNat - '0'.toNat)) 0

/-- Model of JS `parseFloat` restricted to the character set the cleaned
amount string can contain (digits, `-`, `.`, `,`): longest valid prefix of
`[-]digits[.digits]`; `none` models `NaN`. -/
def parseFloatQ (l : List Char) : Option ℚ :=
  let (neg, rest) :=
    match l with
    | '-' :: t => (true, t)
    | _ => (false, l)
  let intDigits := rest.takeWhile isDigit09
  let rest2 := rest.drop intDigits.length
  let fracDigits :=
    match rest2 with
    | '.' :: t => t.takeWhile isDigit09
    | _ => []
  if intDigits.isEmpty && fracDigits.isEmpty then none
  else
    let v : ℚ := (digitsToNat intDigits : ℚ) +
      (digitsToNat fracDigits : ℚ) / (10 ^ fracDigits.length : ℕ)
    some (if neg then -v else v)

/-- JS `cleaned.replace(",", ".")`: replace only the first occurrence. -/
def replaceFirst : List Char → Char → Char → List Char
  | [], _, _ => []
  | c :: cs, a, b => if c = a then b :: cs else c :: replaceFirst cs a b

/-- `parseAmount(raw)` from the source (lines 158-172): trim, strip all but
digits/sign/comma/period, resolve comma-vs-period convention, parse, round
to 2 decimals with `Math.round(n * 100) / 100`. -/
def parseAmount (raw : CellVal) : Option ℚ :=
  match raw with
  | .null => none
  | .num q => some (round2 q)
  | .str s =>
    let t := trimChars s.data
    if t.isEmpty then none
    else
      let cleaned := t.filter (fun c => isDigit09 c || c = '-' || c = '.' || c = ',')
      let normalized :=
        if cleaned.contains ',' && cleaned.contains '.' then
          cleaned.filter (fun c => !(c = ','))
        else if cleaned.contains ',' && !(cleaned.contains '.') then
          replaceFirst (cleaned.filter (fun c => !(c = '.'))) ',' '.'
        else cleaned
      match parseFloatQ normalized with
      | none => none
      | some n => some (round2 n)

/-- The debit/credit amount combination from `normalizeRows` (source lines
192-196): parse debit and credit cells (`|| 0` for missing/unparseable),
combine by sign convention, round to 2 decimals. -/
def debitCreditAmount (debitCell creditCell : CellVal) (conv : SignConvention) : ℚ :=
  let debit := (parseAmount debitCell).getD 0
  let credit := (parseAmount creditCell).getD 0
  let amount := if conv = SignConvention.creditPositive then credit - debit else debit - credit
  round2 amount

/- Description tokenization and scoring (`tokenize`, `descriptionScore`). -/

def isTokenChar (c : Char) : Bool := ('a' ≤ c && c ≤ 'z') || ('0' ≤ c && c ≤ '9')

/-- Split a character list on whitespace runs, dropping empty pieces
(the JS `.split(/\s+/).filter(Boolean)`); `acc` holds the current token
reversed. -/
def splitTokensAux : List Char → List Char → List String
  | [], acc => if acc.isEmpty then [] else [String.mk acc.reverse]
  | c :: cs, acc =>
    if isWSChar c then
      if acc.isEmpty then splitTokensAux cs []
      else String.mk acc.reverse :: splitTokensAux cs []
    else splitTokensAux cs (c :: acc)

/-- `tokenize(s)` from the source (lines 278-286): lowercase, replace every
char outside `[a-z0-9\s]` by a space, split on whitespace, drop empties,
collect as a set. -/
def tokenize (s : String) : Finset String :=
  let mapped := (s.data.map lowerChar).map (fun c => if isTokenChar c || isWSChar c then c else ' ')
  (splitTokensAux mapped []).toFinset

/-- `descriptionScore(a, b)` from the source (lines 268-277): 50 when either
token set is empty, otherwise `Math.round((1 - jaccard) * 50)`. -/
def descriptionScore (a b : String) : ℤ :=
  let ta := tokenize a
  let tb := tokenize b
  if ta.card = 0 || tb.card = 0 then 50
  else
    let common : ℕ := (ta ∩ tb).card
    let union : ℚ := (ta.card : ℚ) + (tb.card : ℚ) - (common : ℚ)
    let jaccard : ℚ := if union = 0 then 0 else (common : ℚ) / union
    jsRound ((1 - jaccard) * 50)

/-- `daysBetween(iso1, iso2)` (source lines 174-178) on the epoch-day model:
the absolute day distance. -/
def daysBetween (d1 d2 : ℤ) : ℕ := (d1 - d2).natAbs

/- The matching engine (`reconcileSmart`). -/

/-- `type MappedRow` (source lines 36-45); `dateISO` is the epoch-day model
of the `yyyy-mm-dd` string, `dateStr` the display string, `raw` the
back-reference to the raw row. -/
structure MappedRow where
  id : String
  source : Source
  index : ℕ
  dateStr : String
  dateISO : ℤ
  amount : ℚ
  description : String
  raw : List (String × CellVal)
deriving DecidableEq

/-- `type MatchPair` (source lines 47-54). -/
structure MatchPair where
  id : String
  bank : Option MappedRow
  cashbook : Option MappedRow
  matched : Bool
  amountDiff : ℚ
  dateDiffDays : ℕ
deriving DecidableEq

inductive DateFmt
  | auto
  | ymd
  | dmy
  | mdy
deriving DecidableEq, Repr

inductive Strategy
  | strict
  | smart
deriving DecidableEq, Repr

/-- `type ReconcileSettings` (source lines 61-67). -/
structure ReconcileSettings where
  amountTolerance : ℚ
  dateWindowDays : ℚ
  dateFormat : DateFmt
  currency : String
  strategy : Strategy
deriving DecidableEq

/-- `DEFAULT_SETTINGS` (source lines 69-75). -/
def DEFAULT_SETTINGS : ReconcileSettings :=
  ⟨0, 0, DateFmt.auto, "USD", Strategy.smart⟩

/-- The row comparator of `reconcileSmart` (source lines 313-314): date
primary (lexical ISO = numeric epoch-day), amount secondary, ascending. -/
def rowLe (a b : MappedRow) : Prop :=
  a.dateISO < b.dateISO ∨ (a.dateISO = b.dateISO ∧ a.amount ≤ b.amount)

instance : DecidableRel rowLe := fun a b => by unfold rowLe; infer_instance

/-- The final presentation comparator of `reconcileSmart` (source lines
360-367): by date of whichever side is present (bank first), then by amount
of whichever side is present. -/
def pairKeyDate (p : MatchPair) : ℤ :=
  match p.bank with
  | some b => b.dateISO
  | none =>
    match p.cashbook with
    | some c => c.dateISO
    | none => 0

def pairKeyAmount (p : MatchPair) : ℚ :=
  match p.bank with
  | some b => b.amount
  | none =>
    match p.cashbook with
    | some c => c.amount
    | none => 0

def pairLe (p1 p2 : MatchPair) : Prop :=
  pairKeyDate p1 < pairKeyDate p2 ∨
    (pairKeyDate p1 = pairKeyDate p2 ∧ pairKeyAmount p1 ≤ pairKeyAmount p2)

instance : DecidableRel pairLe := fun a b => by unfold pairLe; infer_instance

/-- The running "best candidate" of the inner scan of `reconcileSmart`
(`bestJ`, `bestAmountDiff`, `bestDateDiff`, `bestScore`, plus the candidate
row itself). -/
structure Cand where
  j : ℕ
  c : MappedRow
  amountDiff : ℚ
  dateDiff : ℕ
  score : ℚ
deriving DecidableEq

/-- One step of the inner candidate scan (source lines 327-342): skip
consumed cashbook rows, filter by tolerance and window, keep the
first-encountered strictly-minimal score. -/
def considerCand (b : MappedRow) (tol window : ℚ) (used : Finset ℕ)
    (best : Option Cand) (jc : ℕ × MappedRow) : Option Cand :=
  if jc.1 ∈ used then best
  else
    let amountDiff := round2 (b.amount - jc.2.amount)
    let dateDiff := daysBetween b.dateISO jc.2.dateISO
    if |amountDiff| ≤ tol ∧ (dateDiff : ℚ) ≤ window then
      let descScore := descriptionScore b.description jc.2.description
      let score : ℚ := (dateDiff : ℚ) * 1000 + |amountDiff| * 100 + (descScore : ℚ)
      match best with
      | none => some ⟨jc.1, jc.2, amountDiff, dateDiff, score⟩
      | some bst =>
        if score < bst.score then some ⟨jc.1, jc.2, amountDiff, dateDiff, score⟩ else some bst
    else best

/-- The inner scan over all cashbook rows for one bank row. -/
def findBest (b : MappedRow) (cash : List MappedRow) (used : Finset ℕ)
    (tol window : ℚ) : Option Cand :=
  cash.enum.foldl (considerCand b tol window used) none

/-- The outer bank loop of `reconcileSmart` (source lines 320-351): one pair
per bank row, consuming the chosen cashbook index. -/
def reconcileLoop (cash : List MappedRow) (tol window : ℚ) :
    List MappedRow → Finset ℕ → List MatchPair × Finset ℕ
  | [], used => ([], used)
  | b :: bs, used =>
    match findBest b cash used tol window with
    | some cand =>
      let rest := reconcileLoop cash tol window bs (insert cand.j used)
      (⟨"pair-" ++ b.id ++ "-" ++ cand.c.id, some b, some cand.c, true,
        cand.amountDiff, cand.dateDiff⟩ :: rest.1, rest.2)
    | none =>
      let rest := reconcileLoop cash tol window bs used
      (⟨"pair-" ++ b.id ++ "-none", some b, none, false, b.amount, 0⟩ :: rest.1, rest.2)

/-- The trailing loop of `reconcileSmart` (source lines 353-358): every
never-consumed cashbook row becomes a cashbook-only pair. -/
def unmatchedCashPairs (cash : List MappedRow) (used : Finset ℕ) : List MatchPair :=
  (cash.enum.filter (fun jc => decide (jc.1 ∉ used))).map
    (fun jc => ⟨"pair-none-" ++ jc.2.id, none, some jc.2, false, -jc.2.amount, 0⟩)

/-- The summary totals of `summarize` (source lines 287-311). -/
structure Totals where
  bankCount : ℕ
  cashbookCount : ℕ
  matchedPairs : ℕ
  unmatchedBank : ℕ
  unmatchedCash : ℕ
  totalBank : ℚ
  totalCash : ℚ
  netDiff : ℚ
  unmatchedBankAmount : ℚ
  unmatchedCashAmount : ℚ
deriving DecidableEq

def isBankOnlyPair (p : MatchPair) : Bool := !p.matched && p.bank.isSome && !p.cashbook.isSome

def isCashOnlyPair (p : MatchPair) : Bool := !p.matched && p.cashbook.isSome && !p.bank.isSome

/-- `summarize(bank, cashbook, pairs)` from the source (lines 287-311). -/
def summarize (bank cashbook : List MappedRow) (pairs : List MatchPair) : Totals :=
  let matchedPairs := (pairs.filter (fun p => p.matched)).length
  let unmatchedBank := (pairs.filter isBankOnlyPair).length
  let unmatchedCash := (pairs.filter isCashOnlyPair).length
  let totalBank := round2 (bank.foldl (fun sum r => sum + r.amount) 0)
  let totalCash := round2 (cashbook.foldl (fun sum r => sum + r.amount) 0)
  let netDiff := round2 (totalBank - totalCash)
  let unmatchedBankAmount := round2 ((pairs.filter isBankOnlyPair).foldl
    (fun sum p => sum + ((p.bank.map MappedRow.amount).getD 0)) 0)
  let unmatchedCashAmount := round2 ((pairs.filter isCashOnlyPair).foldl
    (fun sum p => sum + ((p.cashbook.map MappedRow.amount).getD 0)) 0)
  ⟨bank.length, cashbook.length, matchedPairs, unmatchedBank, unmatchedCash,
    totalBank, totalCash, netDiff, unmatchedBankAmount, unmatchedCashAmount⟩

/-- The `{ pairs, stats }` result of `reconcileSmart`. -/
structure ReconcileResult where
  pairs : List MatchPair
  stats : Totals
deriving DecidableEq

/-- `reconcileSmart(bank, cash, settings)` from the source (lines 312-371).
Note that only `settings.amountTolerance` and `settings.dateWindowDays` are
ever read. -/
def reconcileSmart (bank cash : List MappedRow) (settings : ReconcileSettings) :
    ReconcileResult :=
  let bankSorted := List.insertionSort rowLe bank
  let cashSorted := List.insertionSort rowLe cash
  let tol := settings.amountTolerance
  let window := settings.dateWindowDays
  let res := reconcileLoop cashSorted tol window bankSorted ∅
  let pairs := res.1 ++ unmatchedCashPairs cashSorted res.2
  let sorted := List.insertionSort pairLe pairs
  ⟨sorted, summarize bankSorted cashSorted sorted⟩

/- The advisory fuzzy-suggestion engine of reconciliation-workspace.tsx. -/

inductive RecordStatus
  | matched
  | unmatched
  | pending
  | exception
  | suggested
deriving DecidableEq, Repr

/-- `type FinancialRecord` (app context), restricted to the fields the
suggestion engine reads; `date` is the epoch-day model, `reference` is `""`
when absent. -/
structure FinancialRecord where
  id : String
  source : Source
  date : ℤ
  amount : ℚ
  description : String
  reference : String
  status : RecordStatus
deriving DecidableEq

/-- `editDistance(s1, s2)` (reconciliation-workspace.tsx lines 225-245): the
single-array Levenshtein loop, translated statement by statement. -/
def editDistance (s1 s2 : String) : ℕ := Id.run do
  let a := (toLowerStr s1).data.toArray
  let b := (toLowerStr s2).data.toArray
  let mut costs : Array ℕ := Array.mkArray (b.size + 1) 0
  let mut lastValue := 0
  for i in [0 : a.size + 1] do
    lastValue := i
    for j in [0 : b.size + 1] do
      if i == 0 then
        costs := costs.set! j j
      else if j > 0 then
        let mut newValue := costs[j - 1]!
        if a[i - 1]! != b[j - 1]! then
          newValue := min (min newValue lastValue) costs[j]! + 1
        costs := costs.set! (j - 1) lastValue
        lastValue := newValue
    if i > 0 then
      costs := costs.set! b.size lastValue
  return costs[b.size]!

/-- `calculateStringSimilarity(s1, s2)` (lines 218-223). -/
def calculateStringSimilarity (s1 s2 : String) : ℚ :=
  let longer := if s1.data.length > s2.data.length then s1 else s2
  let shorter := if s1.data.length > s2.data.length then s2 else s1
  if longer.data.length = 0 then 1
  else ((longer.data.length : ℚ) - (editDistance longer shorter : ℚ)) / (longer.data.length : ℚ)

/- Specialized matchers for the four document-number regexes of
`extractDocNumbers`:
  1. `[A-Z]{2,3}-\d{4,}`   2. `[A-Z]{2,3}\d{4,}`
  3. `\d{4,}\/\d{2,}`      4. `\b\d{5,}\b`
Each matcher receives the previous character (for `\b`) and the suffix at
the scan position, and returns the length of the match there, if any. -/

def isUpperAZ (c : Char) : Bool := 'A' ≤ c && c ≤ 'Z'

def isWordChar (c : Char) : Bool :=
  isUpperAZ c || ('a' ≤ c && c ≤ 'z') || isDigit09 c || c = '_'

def runLen (p : Char → Bool) (l : List Char) : ℕ := (l.takeWhile p).length

/-- `[A-Z]{2,3}-\d{4,}`: greedy letters (no backtracking can succeed past a
longer letter run), a dash, then at least 4 digits. -/
def docPat1 (_prev : Option Char) (l : List Char) : Option ℕ :=
  let u := runLen isUpperAZ l
  let k := min u 3
  if 2 ≤ k && l.getD k ' ' = '-' then
    let d := runLen isDigit09 (l.drop (k + 1))
    if 4 ≤ d then some (k + 1 + d) else none
  else none

/-- `[A-Z]{2,3}\d{4,}`: an uppercase run of exactly 2 or 3 (a longer run
leaves a letter, not a digit, after any 2- or 3-letter prefix), then at
least 4 digits. -/
def docPat2 (_prev : Option Char) (l : List Char) : Option ℕ :=
  let u := runLen isUpperAZ l
  if 2 ≤ u && u ≤ 3 then
    let d := runLen isDigit09 (l.drop u)
    if 4 ≤ d then some (u + d) else none
  else none

/-- `\d{4,}\/\d{2,}`. -/
def docPat3 (_prev : Option Char) (l : List Char) : Option ℕ :=
  let d1 := runLen isDigit09 l
  if 4 ≤ d1 && l.getD d1 ' ' = '/' then
    let d2 := runLen isDigit09 (l.drop (d1 + 1))
    if 2 ≤ d2 then some (d1 + 1 + d2) else none
  else none

/-- `\b\d{5,}\b`: a maximal digit run of length at least 5 delimited by
non-word characters (or the string ends). -/
def docPat4 (prev : Option Char) (l : List Char) : Option ℕ :=
  let boundaryBefore :=
    match prev with
    | none => true
    | some c => !isWordChar c
  let d := runLen isDigit09 l
  let boundaryAfter :=
    match l.drop d with
    | [] => true
    | c :: _ => !isWordChar c
  if boundaryBefore && 5 ≤ d && boundaryAfter then some d else none

/-- Global-flag regex scan: repeatedly find the leftmost match, resume
right after it (JS `String.prototype.match` with `/g`).  `fuel` bounds the
recursion; each step consumes at least one character. -/
def scanMatchesAux (m : Option Char → List Char → Option ℕ) :
    ℕ → Option Char → List Char → List String
  | 0, _, _ => []
  | _, _, [] => []
  | fuel + 1, prev, c :: cs =>
    match m prev (c :: cs) with
    | some k =>
      let k' := max k 1
      String.mk ((c :: cs).take k') ::
        scanMatchesAux m fuel (((c :: cs).take k').getLast?) ((c :: cs).drop k')
    | none => scanMatchesAux m fuel (some c) cs

def scanMatches (m : Option Char → List Char → Option ℕ) (s : List Char) : List String :=
  scanMatchesAux m s.length none s

/-- JS `Array.from(new Set(found))`: deduplicate keeping first occurrences. -/
def dedupFirst : List String → List String :=
  go []
where
  go (seen : List String) : List String → List String
    | [] => []
    | x :: xs => if x ∈ seen then go seen xs else x :: go (x :: seen) xs

/-- `extractDocNumbers(description)` (reconciliation-workspace.tsx lines
211-216): all matches of the four patterns, in pattern order, deduplicated. -/
def extractDocNumbers (description : String) : List String :=
  let cs := description.data
  let found := [scanMatches docPat1 cs, scanMatches docPat2 cs,
    scanMatches docPat3 cs, scanMatches docPat4 cs].flatten
  dedupFirst found

/-- The additive score of `runAISuggestions` (lines 258-295) for one
bank/cashbook combination. -/
def aiScore (bank cash : FinancialRecord) : ℕ :=
  let amountDiff := |bank.amount - cash.amount|
  let s1 : ℕ := if amountDiff = 0 then 60 else if amountDiff < 1/10 then 40 else 0
  let dateDiff := (bank.date - cash.date).natAbs
  let s2 : ℕ := if dateDiff = 0 then 20 else if dateDiff ≤ 3 then 10 else 0
  let bankDocNos := extractDocNumbers bank.description
  let cashDocNos := extractDocNumbers
    (if cash.description ≠ "" then cash.description else cash.reference)
  let commonDocs := bankDocNos.filter (fun doc => cashDocNos.contains doc)
  let s3 : ℕ := if commonDocs.length > 0 then 30 else 0
  let textSim := calculateStringSimilarity bank.description cash.description
  let s4 : ℕ := if textSim > 8/10 then 15 else 0
  s1 + s2 + s3 + s4

/-- One advisory suggestion (`newSuggestions` entries); the random
`suggest_<Date.now()>_<Math.random()>` id is presentation-only and omitted. -/
structure Suggestion where
  bank : FinancialRecord
  cash : FinancialRecord
  confidence : ℕ
deriving DecidableEq

/-- The descending-confidence comparator used to sort suggestions. -/
def suggLe (a b : Suggestion) : Prop := b.confidence ≤ a.confidence

instance : DecidableRel suggLe := fun a b => by unfold suggLe; infer_instance

def isUnmatchedBank (r : FinancialRecord) : Bool :=
  r.source = Source.bank && r.status = RecordStatus.unmatched

def isUnmatchedCash (r : FinancialRecord) : Bool :=
  r.source = Source.cashbook && r.status = RecordStatus.unmatched

/-- `runAISuggestions` (reconciliation-workspace.tsx lines 247-312), minus
the UI state plumbing: score every unmatched-bank × unmatched-cashbook
combination, keep those scoring at least 40 with confidence
`min(score, 100)`, and sort descending by confidence (stable). -/
def runAISuggestions (records : List FinancialRecord) : List Suggestion :=
  let unmatchedBank := records.filter isUnmatchedBank
  let unmatchedCash := records.filter isUnmatchedCash
  let newSuggestions := unmatchedBank.flatMap (fun bank =>
    unmatchedCash.filterMap (fun cash =>
      let score := aiScore bank cash
      if 40 ≤ score then some ⟨bank, cash, min score 100⟩ else none))
  List.insertionSort suggLe newSuggestions

/- Rounding lemmas. -/

theorem jsRound_intCast (n : ℤ) : jsRound (n : ℚ) = n := by
  unfold jsRound
  rw [Int.floor_eq_iff]
  constructor
  · norm_num
  · norm_num

theorem round2_intCast (n : ℤ) : round2 (n : ℚ) = (n : ℚ) := by
  unfold round2
  have h : (n : ℚ) * 100 = ((n * 100 : ℤ) : ℚ) := by push_cast; ring
  rw [h, jsRound_intCast]
  push_cast
  field_simp

/-- Amounts that are exact 2-decimal values. -/
def isCents (q : ℚ) : Prop := ∃ n : ℤ, q = (n : ℚ) / 100

theorem round2_cents {q : ℚ} (h : isCents q) : round2 q = q := by
  obtain ⟨n, rfl⟩ := h
  unfold round2
  have h100 : (n : ℚ) / 100 * 100 = (n : ℚ) := by field_simp
  rw [h100, jsRound_intCast]

theorem isCents_sub {a b : ℚ} (ha : isCents a) (hb : isCents b) : isCents (a - b) := by
  obtain ⟨m, rfl⟩ := ha
  obtain ⟨n, rfl⟩ := hb
  exact ⟨m - n, by push_cast; ring⟩

/- C10: descriptionScore is symmetric and ranges over [0, 50]. -/

theorem jsRound_nonneg {q : ℚ} (h : 0 ≤ q) : 0 ≤ jsRound q := by
  unfold jsRound
  rw [Int.le_floor]
  push_cast
  linarith

theorem jsRound_le_of_le {q : ℚ} {n : ℤ} (h : q ≤ n) : jsRound q ≤ n := by
  unfold jsRound
  have h1 : ⌊q + 1/2⌋ < n + 1 := by
    rw [Int.floor_lt]
    push_cast
    linarith
  omega

theorem descriptionScore_bounds (x y : String) :
    0 ≤ descriptionScore x y ∧ descriptionScore x y ≤ 50 := by
  unfold descriptionScore
  by_cases hx : (tokenize x).card = 0
  · simp [hx]
  by_cases hy : (tokenize y).card = 0
  · simp [hx, hy]
  simp only [hx, hy, decide_eq_true_eq, Bool.or_eq_true, or_self, if_false, decide_eq_false_iff_not, not_false_eq_true]
  have hca : ((tokenize x ∩ tokenize y).card : ℚ) ≤ ((tokenize x).card : ℚ) := by
    exact_mod_cast Finset.card_le_card Finset.inter_subset_left
  have hcb : ((tokenize x ∩ tokenize y).card : ℚ) ≤ ((tokenize y).card : ℚ) := by
    exact_mod_cast Finset.card_le_card Finset.inter_subset_right
  have h1 : (1 : ℚ) ≤ ((tokenize x).card : ℚ) := by
    exact_mod_cast Nat.one_le_iff_ne_zero.mpr hx
  have h2 : (1 : ℚ) ≤ ((tokenize y).card : ℚ) := by
    exact_mod_cast Nat.one_le_iff_ne_zero.mpr hy
  have hc0 : (0 : ℚ) ≤ ((tokenize x ∩ tokenize y).card : ℚ) := by positivity
  rw [if_neg (by linarith)]
  have hj0 : (0 : ℚ) ≤ ((tokenize x ∩ tokenize y).card : ℚ) /
      (((tokenize x).card : ℚ) + ((tokenize y).card : ℚ) - ((tokenize x ∩ tokenize y).card : ℚ)) :=
    div_nonneg hc0 (by linarith)
  have hj1 : ((tokenize x ∩ tokenize y).card : ℚ) /
      (((tokenize x).card : ℚ) + ((tokenize y).card : ℚ) - ((tokenize x ∩ tokenize y).card : ℚ)) ≤ 1 :=
    (div_le_one (by linarith)).mpr (by linarith)
  constructor
  · exact jsRound_nonneg (by nlinarith)
  · exact jsRound_le_of_le (by push_cast; nlinarith)

theorem descriptionScore_comm (x y : String) : descriptionScore x y = descriptionScore y x := by
  unfold descriptionScore
  by_cases hx : (tokenize x).card = 0 <;> by_cases hy : (tokenize y).card = 0 <;>
    simp only [hx, hy, decide_True, decide_False, Bool.or_true, Bool.true_or, Bool.or_false,
      Bool.false_or, if_true, if_false, decide_eq_true_eq]
  all_goals
    first
    | rfl
    | rw [Finset.inter_comm (tokenize y) (tokenize x),
        add_comm (((tokenize y).card : ℚ)) (((tokenize x).card : ℚ))]

/-- C10: `descriptionScore` is symmetric — `descriptionScore a b =
descriptionScore b a` for all strings — and its result always lies in the
range 0 to 50 inclusive. -/
theorem descriptionScore_symm_and_range (a b : String) :
    descriptionScore a b = descriptionScore b a ∧
    0 ≤ descriptionScore a b ∧ descriptionScore a b ≤ 50 :=
  ⟨descriptionScore_comm a b, (descriptionScore_bounds a b).1, (descriptionScore_bounds a b).2⟩

/- C7: concrete amount-string parses (spec Scenario E). -/

/-- C7 counterexample: the claim says `"1.234,56"` parses to 1234.56, but
`parseAmount` hits the both-separators branch (commas are stripped as
thousands separators), parses 1.23456, and rounds to 1.23. -/
theorem parseAmount_comma_decimal_counterexample :
    parseAmount (CellVal.str "1.234,56") = some ((123 : ℚ) / 100) ∧
    ((123 : ℚ) / 100) ≠ (123456 : ℚ) / 100 := by
  constructor
  · simp +decide [parseAmount, parseFloatQ, trimChars, digitsToNat, replaceFirst]
    norm_num [round2, jsRound]
  · norm_num

/-- C7 amended: `"1,234.56"` parses to 1234.56 and `"-45.00"` to -45.00 as
claimed, but `"1.234,56"` parses to 1.23: when both comma and period are
present, commas are treated as thousands separators and stripped, so the
comma-decimal convention does not apply. -/
theorem parseAmount_scenarioE :
    parseAmount (CellVal.str "1,234.56") = some ((123456 : ℚ) / 100) ∧
    parseAmount (CellVal.str "1.234,56") = some ((123 : ℚ) / 100) ∧
    parseAmount (CellVal.str "-45.00") = some (-45 : ℚ) := by
  refine ⟨?_, ?_, ?_⟩ <;>
    · simp +decide [parseAmount, parseFloatQ, trimChars, digitsToNat, replaceFirst]
      norm_num [round2, jsRound]

/- C8: the Normalizer's rounding mode. -/

/-- C8 counterexample: the claim says amounts are rounded
half-away-from-zero, so the parsable negative value -0.125 (third decimal
digit exactly 5) would have to round away from zero to -0.13; the code
(`Math.round(n * 100) / 100`) instead produces -0.12. -/
theorem parseAmount_half_away_counterexample :
    parseAmount (CellVal.str "-0.125") = some ((-12 : ℚ) / 100) ∧
    specRound2 ((-125 : ℚ) / 1000) = (-13 : ℚ) / 100 ∧
    ((-12 : ℚ) / 100) ≠ (-13 : ℚ) / 100 := by
  refine ⟨?_, ?_, ?_⟩
  · simp +decide [parseAmount, parseFloatQ, trimChars, digitsToNat, replaceFirst]
    norm_num [round2, jsRound]
  · rw [specRound2, if_pos (by norm_num), abs_of_neg (by norm_num)]
    norm_num [jsRound]
  · norm_num

/-- C8 amended: every amount the Normalizer produces (`parseAmount` on a
cell, the debit/credit combination) is the parsed value rounded to 2
decimal places with round-half-up (towards `+∞`): outputs are exact
2-decimal values, a numeric cell maps to `round2`, and an exact half at
the third decimal place always rounds up — away from zero for positive
values but towards zero for negative ones. -/
theorem normalizer_rounds_half_up :
    (∀ v r, parseAmount v = some r → isCents r) ∧
    (∀ q : ℚ, parseAmount (CellVal.num q) = some (round2 q)) ∧
    (∀ dc cc conv, isCents (debitCreditAmount dc cc conv)) ∧
    (∀ k : ℤ, round2 ((2 * (k : ℚ) + 1) / 200) = ((k : ℚ) + 1) / 100) := by
  refine ⟨?_, fun q => rfl, ?_, ?_⟩
  · intro v r h
    match v with
    | .null => exact absurd h (by simp [parseAmount])
    | .num q =>
      simp only [parseAmount, Option.some.injEq] at h
      exact ⟨jsRound (q * 100), h ▸ rfl⟩
    | .str s =>
      simp only [parseAmount] at h
      split at h
      · exact absurd h (by simp)
      · split at h
        · exact absurd h (by simp)
        · rename_i n _
          exact ⟨jsRound (n * 100), (Option.some.injEq _ _ ▸ h : _ = r) ▸ rfl⟩
  · intro dc cc conv
    exact ⟨jsRound ((if conv = SignConvention.creditPositive then
      (parseAmount cc).getD 0 - (parseAmount dc).getD 0
      else (parseAmount dc).getD 0 - (parseAmount cc).getD 0) * 100), rfl⟩
  · intro k
    unfold round2
    have h : (2 * (k : ℚ) + 1) / 200 * 100 = ((k + 1 : ℤ) : ℚ) - 1/2 := by
      push_cast
      ring
    rw [h]
    have h2 : jsRound (((k + 1 : ℤ) : ℚ) - 1/2) = k + 1 := by
      unfold jsRound
      rw [show ((k + 1 : ℤ) : ℚ) - 1/2 + 1/2 = ((k + 1 : ℤ) : ℚ) by ring, Int.floor_intCast]
    rw [h2]
    push_cast
    ring

/-- Witness for the amended C8 theorem at concrete inputs: the string cell
`"-0.125"` yields an exact 2-decimal value, and the negative exact half
-0.125 (k = -13) rounds up to -0.12, towards zero. -/
theorem normalizer_rounds_half_up_witness :
    isCents ((-12 : ℚ) / 100) ∧
    round2 ((2 * ((-13 : ℤ) : ℚ) + 1) / 200) = (((-13 : ℤ) : ℚ) + 1) / 100 := by
  constructor
  · exact normalizer_rounds_half_up.1 (CellVal.str "-0.125") ((-12 : ℚ) / 100)
      (by simp +decide [parseAmount, parseFloatQ, trimChars, digitsToNat, replaceFirst]
          norm_num [round2, jsRound])
  · exact normalizer_rounds_half_up.2.2.2 (-13)

/- C6: detectMapping on headers with debit/credit but no amount column. -/

/-- C6: for the headers `["Date", "Debit", "Credit"]` — no header contains
an amount candidate ("amount"/"amt"/"value"), while debit and credit
candidates both match — the claim (and spec §4.2) requires mode
`debitcredit`; the code instead falls the amount pick back to the first
header `"Date"`, a non-empty string, so the mode test `amount ? "amount" :
"debitcredit"` yields mode `amount` (and the description fallback is also
the first header).  The `debitcredit` mode is unreachable whenever the
first header is non-empty. -/
theorem detectMapping_debit_credit_headers :
    detectMapping ["Date", "Debit", "Credit"] =
      ⟨MapMode.amount, "Date", "Date", "Debit", "Credit", "Date", SignConvention.creditPositive⟩ := by
  decide

/- C1: the "strict" strategy. -/

theorem round2_neg_one : round2 (-1 : ℚ) = -1 := by
  rw [show (-1 : ℚ) = ((-1 : ℤ) : ℚ) by norm_num, round2_intCast]

/-- C1: the reconcile operation never reads `settings.strategy` — its result
is invariant under changing the strategy — so with `strategy = strict` it
still matches with the configured tolerance and window instead of forcing
both to 0.  Concretely, with strict strategy, tolerance 1 and window 0, a
10-vs-11 pair on the same day is matched, while the claimed forced-to-zero
behavior (same input, tolerance 0) leaves both sides unmatched. -/
theorem strict_strategy_not_forced_to_zero :
    (∀ bank cash s str,
      reconcileSmart bank cash { s with strategy := str } = reconcileSmart bank cash s) ∧
    (reconcileSmart
      [⟨"bank-0", Source.bank, 0, "01/01/2024", 0, 10, "", []⟩]
      [⟨"cashbook-0", Source.cashbook, 0, "01/01/2024", 0, 11, "", []⟩]
      ⟨1, 0, DateFmt.auto, "USD", Strategy.strict⟩).pairs.map MatchPair.matched = [true] ∧
    (reconcileSmart
      [⟨"bank-0", Source.bank, 0, "01/01/2024", 0, 10, "", []⟩]
      [⟨"cashbook-0", Source.cashbook, 0, "01/01/2024", 0, 11, "", []⟩]
      ⟨0, 0, DateFmt.auto, "USD", Strategy.strict⟩).pairs.map MatchPair.matched = [false, false] := by
  refine ⟨fun bank cash s str => rfl, ?_, ?_⟩
  · simp [reconcileSmart, reconcileLoop, findBest, considerCand, List.insertionSort,
      List.orderedInsert, unmatchedCashPairs, daysBetween, round2_neg_one,
      show (10 : ℚ) - 11 = -1 by norm_num]
  · simp [reconcileSmart, reconcileLoop, findBest, considerCand, List.insertionSort,
      List.orderedInsert, unmatchedCashPairs, daysBetween, round2_neg_one,
      show (10 : ℚ) - 11 = -1 by norm_num, pairLe, pairKeyDate, pairKeyAmount,
      show (10 : ℚ) ≤ 11 by norm_num]

/- C4: determinism of reconcileSmart. -/

/-- C4: `reconcileSmart` is deterministic — two invocations on equal bank
lists, cashbook lists and settings produce equal results (same pairs, same
ids and order, same summary).  The embedding is a pure function of its
arguments: the source reads no clock, randomness or ambient state, and the
only JS-runtime latitude, `Array.prototype.sort`, is stable (modeled by a
stable insertion sort). -/
theorem reconcileSmart_deterministic (b₁ c₁ : List MappedRow) (s₁ : ReconcileSettings)
    (b₂ c₂ : List MappedRow) (s₂ : ReconcileSettings)
    (hb : b₁ = b₂) (hc : c₁ = c₂) (hs : s₁ = s₂) :
    reconcileSmart b₁ c₁ s₁ = reconcileSmart b₂ c₂ s₂ := by
  rw [hb, hc, hs]

/-- Witness for C4 at a concrete input. -/
theorem reconcileSmart_deterministic_witness :
    reconcileSmart [] [] DEFAULT_SETTINGS = reconcileSmart [] [] DEFAULT_SETTINGS :=
  reconcileSmart_deterministic [] [] DEFAULT_SETTINGS [] [] DEFAULT_SETTINGS rfl rfl rfl

/- Soundness of the inner candidate scan. -/

/-- What the scan guarantees about any candidate it returns. -/
def candSound (b : MappedRow) (cash : List MappedRow) (used : Finset ℕ)
    (tol window : ℚ) (cand : Cand) : Prop :=
  cand.j ∉ used ∧ (cand.j, cand.c) ∈ cash.enum ∧
  cand.amountDiff = round2 (b.amount - cand.c.amount) ∧
  cand.dateDiff = daysBetween b.dateISO cand.c.dateISO ∧
  |cand.amountDiff| ≤ tol ∧ (cand.dateDiff : ℚ) ≤ window

theorem considerCand_sound {b : MappedRow} {cash : List MappedRow} {used : Finset ℕ}
    {tol window : ℚ} {best : Option Cand} {jc : ℕ × MappedRow}
    (hjc : jc ∈ cash.enum)
    (hbest : ∀ cand, best = some cand → candSound b cash used tol window cand) :
    ∀ cand, considerCand b tol window used best jc = some cand →
      candSound b cash used tol window cand := by
  intro cand h
  rcases best with _ | bst <;> simp only [considerCand] at h
  · by_cases hused : jc.1 ∈ used
    · rw [if_pos hused] at h
      exact absurd h (by simp)
    · rw [if_neg hused] at h
      by_cases hcond : |round2 (b.amount - jc.2.amount)| ≤ tol ∧
          ((daysBetween b.dateISO jc.2.dateISO : ℕ) : ℚ) ≤ window
      · rw [if_pos hcond, Option.some.injEq] at h
        subst h
        exact ⟨hused, by rwa [Prod.mk.eta], rfl, rfl, hcond.1, hcond.2⟩
      · rw [if_neg hcond] at h
        exact absurd h (by simp)
  · by_cases hused : jc.1 ∈ used
    · rw [if_pos hused, Option.some.injEq] at h
      subst h
      exact hbest bst rfl
    · rw [if_neg hused] at h
      by_cases hcond : |round2 (b.amount - jc.2.amount)| ≤ tol ∧
          ((daysBetween b.dateISO jc.2.dateISO : ℕ) : ℚ) ≤ window
      · rw [if_pos hcond] at h
        by_cases hsc : ((daysBetween b.dateISO jc.2.dateISO : ℕ) : ℚ) * 1000 +
            |round2 (b.amount - jc.2.amount)| * 100 +
            ((descriptionScore b.description jc.2.description : ℤ) : ℚ) < bst.score
        · rw [if_pos hsc, Option.some.injEq] at h
          subst h
          exact ⟨hused, by rwa [Prod.mk.eta], rfl, rfl, hcond.1, hcond.2⟩
        · rw [if_neg hsc, Option.some.injEq] at h
          subst h
          exact hbest bst rfl
      · rw [if_neg hcond, Option.some.injEq] at h
        subst h
        exact hbest bst rfl

theorem foldl_considerCand_sound {b : MappedRow} {cash : List MappedRow} {used : Finset ℕ}
    {tol window : ℚ} :
    ∀ (l : List (ℕ × MappedRow)) (acc : Option Cand),
      (∀ x ∈ l, x ∈ cash.enum) →
      (∀ cand, acc = some cand → candSound b cash used tol window cand) →
      ∀ cand, l.foldl (considerCand b tol window used) acc = some cand →
        candSound b cash used tol window cand := by
  intro l
  induction l with
  | nil => intro acc _ hacc cand h; exact hacc cand h
  | cons x xs ih =>
    intro acc hl hacc cand h
    exact ih (considerCand b tol window used acc x)
      (fun y hy => hl y (List.mem_cons_of_mem x hy))
      (considerCand_sound (hl x (List.mem_cons_self x xs)) hacc) cand h

theorem findBest_sound {b : MappedRow} {cash : List MappedRow} {used : Finset ℕ}
    {tol window : ℚ} {cand : Cand}
    (h : findBest b cash used tol window = some cand) :
    candSound b cash used tol window cand :=
  foldl_considerCand_sound cash.enum none (fun _ hx => hx) (by simp) cand h

/- Shape of every produced pair. -/

/-- Every pair `reconcileSmart` produces is a matched pair within tolerance
and window, a bank-only residue, or a cashbook-only residue. -/
def PairShape (tol window : ℚ) (p : MatchPair) : Prop :=
  (∃ b c, p.bank = some b ∧ p.cashbook = some c ∧ p.matched = true ∧
    p.amountDiff = round2 (b.amount - c.amount) ∧
    p.dateDiffDays = daysBetween b.dateISO c.dateISO ∧
    |p.amountDiff| ≤ tol ∧ ((p.dateDiffDays : ℕ) : ℚ) ≤ window) ∨
  (∃ b, p.bank = some b ∧ p.cashbook = none ∧ p.matched = false ∧
    p.amountDiff = b.amount ∧ p.dateDiffDays = 0) ∨
  (∃ c, p.bank = none ∧ p.cashbook = some c ∧ p.matched = false ∧
    p.amountDiff = -c.amount ∧ p.dateDiffDays = 0)

theorem reconcileLoop_shape {cash : List MappedRow} {tol window : ℚ} :
    ∀ (bs : List MappedRow) (used : Finset ℕ) (p : MatchPair),
      p ∈ (reconcileLoop cash tol window bs used).1 → PairShape tol window p := by
  intro bs
  induction bs with
  | nil => intro used p hp; exact absurd hp (by simp [reconcileLoop])
  | cons b bs ih =>
    intro used p hp
    rw [reconcileLoop] at hp
    rcases hfb : findBest b cash used tol window with _ | cand <;> rw [hfb] at hp <;>
      rcases List.mem_cons.mp hp with hhd | htl
    · subst hhd
      exact Or.inr (Or.inl ⟨b, rfl, rfl, rfl, rfl, rfl⟩)
    · exact ih used p htl
    · subst hhd
      obtain ⟨-, -, had, hdd, htol, hwin⟩ := findBest_sound hfb
      exact Or.inl ⟨b, cand.c, rfl, rfl, rfl, had, hdd, htol, hwin⟩
    · exact ih (insert cand.j used) p htl

theorem reconcileLoop_bank_sides {cash : List MappedRow} {tol window : ℚ} :
    ∀ (bs : List MappedRow) (used : Finset ℕ),
      (reconcileLoop cash tol window bs used).1.filterMap MatchPair.bank = bs := by
  intro bs
  induction bs with
  | nil => intro used; simp [reconcileLoop]
  | cons b bs ih =>
    intro used
    rw [reconcileLoop]
    rcases hfb : findBest b cash used tol window with _ | cand <;>
      simp [List.filterMap_cons, ih]

/- Cash-side conservation machinery. -/

/-- The cashbook rows whose index is not yet consumed. -/
def leftover (cash : List MappedRow) (used : Finset ℕ) : List MappedRow :=
  (cash.enum.filter (fun jc => decide (jc.1 ∉ used))).map Prod.snd

theorem filter_congr_key_not_mem {α : Type _} {j : ℕ} {used : Finset ℕ} :
    ∀ (l : List (ℕ × α)), j ∉ l.map Prod.fst →
      l.filter (fun p => decide (p.1 ∉ insert j used)) =
        l.filter (fun p => decide (p.1 ∉ used)) := by
  intro l hj
  refine List.filter_congr fun x hx => ?_
  have hne : x.1 ≠ j := fun he => hj (he ▸ List.mem_map_of_mem Prod.fst hx)
  simp [Finset.mem_insert, hne]

theorem filter_not_mem_insert_perm {α : Type _} {used : Finset ℕ} {j : ℕ} {c : α} :
    ∀ (l : List (ℕ × α)), (l.map Prod.fst).Nodup → (j, c) ∈ l → j ∉ used →
      ((l.filter (fun p => decide (p.1 ∉ used))).map Prod.snd).Perm
        (c :: (l.filter (fun p => decide (p.1 ∉ insert j used))).map Prod.snd) := by
  intro l
  induction l with
  | nil => intro _ hmem _; exact absurd hmem (List.not_mem_nil _)
  | cons x xs ih =>
    intro hnd hmem hju
    have hnd' : (xs.map Prod.fst).Nodup := by
      rw [List.map_cons] at hnd
      exact hnd.of_cons
    rcases List.mem_cons.mp hmem with hx | hxs
    · subst hx
      rw [List.filter_cons_of_pos (by simp [hju]),
        List.filter_cons_of_neg (by simp), List.map_cons]
      have hkey : j ∉ xs.map Prod.fst := by
        rw [List.map_cons] at hnd
        exact (List.nodup_cons.mp hnd).1
      rw [filter_congr_key_not_mem xs hkey]
    · have hx1 : x.1 ≠ j := by
        intro he
        rw [List.map_cons] at hnd
        exact (List.nodup_cons.mp hnd).1 (he ▸ List.mem_map_of_mem Prod.fst hxs)
      by_cases hxu : x.1 ∈ used
      · rw [List.filter_cons_of_neg (by simp [hxu]),
          List.filter_cons_of_neg (by simp [Finset.mem_insert, hxu])]
        exact ih hnd' hxs hju
      · rw [List.filter_cons_of_pos (by simp [hxu]),
          List.filter_cons_of_pos (by simp [Finset.mem_insert, hxu, hx1]), List.map_cons,
          List.map_cons]
        exact ((ih hnd' hxs hju).cons x.2).trans (List.Perm.swap c x.2 _)

theorem leftover_insert_perm {cash : List MappedRow} {used : Finset ℕ} {j : ℕ}
    {c : MappedRow} (hmem : (j, c) ∈ cash.enum) (hju : j ∉ used) :
    (leftover cash used).Perm (c :: leftover cash (insert j used)) := by
  refine filter_not_mem_insert_perm cash.enum ?_ hmem hju
  rw [List.enum_map_fst]
  exact List.nodup_range _

theorem reconcileLoop_cash_sides {cash : List MappedRow} {tol window : ℚ} :
    ∀ (bs : List MappedRow) (used : Finset ℕ),
      ((reconcileLoop cash tol window bs used).1.filterMap MatchPair.cashbook ++
        leftover cash (reconcileLoop cash tol window bs used).2).Perm
        (leftover cash used) := by
  intro bs
  induction bs with
  | nil => intro used; simp [reconcileLoop]
  | cons b bs ih =>
    intro used
    rw [reconcileLoop]
    rcases hfb : findBest b cash used tol window with _ | cand
    · simpa [List.filterMap_cons] using ih used
    · obtain ⟨hju, hmem, -, -, -, -⟩ := findBest_sound hfb
      simp only [List.filterMap_cons, List.cons_append]
      exact ((ih (insert cand.j used)).cons cand.c).trans (leftover_insert_perm hmem hju).symm

theorem unmatchedCashPairs_cash_sides (cash : List MappedRow) (used : Finset ℕ) :
    (unmatchedCashPairs cash used).filterMap MatchPair.cashbook = leftover cash used := by
  unfold unmatchedCashPairs leftover
  generalize cash.enum.filter (fun jc => decide (jc.1 ∉ used)) = l
  induction l with
  | nil => rfl
  | cons x xs ih => simp [List.filterMap_cons, ih]

theorem unmatchedCashPairs_bank_sides (cash : List MappedRow) (used : Finset ℕ) :
    (unmatchedCashPairs cash used).filterMap MatchPair.bank = [] := by
  unfold unmatchedCashPairs
  generalize cash.enum.filter (fun jc => decide (jc.1 ∉ used)) = l
  induction l with
  | nil => rfl
  | cons x xs ih => simp [List.filterMap_cons, ih]

theorem unmatchedCashPairs_shape {tol window : ℚ} {cash : List MappedRow} {used : Finset ℕ}
    {p : MatchPair} (hp : p ∈ unmatchedCashPairs cash used) : PairShape tol window p := by
  obtain ⟨jc, -, rfl⟩ := List.mem_map.mp hp
  exact Or.inr (Or.inr ⟨jc.2, rfl, rfl, rfl, rfl, rfl⟩)

theorem leftover_empty (cash : List MappedRow) : leftover cash (∅ : Finset ℕ) = cash := by
  simp [leftover, List.enum_map_snd]

/-- The pairs of `reconcileSmart` are a permutation of the loop output plus
the cashbook-only residues. -/
theorem reconcileSmart_pairs_perm (bank cash : List MappedRow) (s : ReconcileSettings) :
    (reconcileSmart bank cash s).pairs.Perm
      ((reconcileLoop (List.insertionSort rowLe cash) s.amountTolerance s.dateWindowDays
          (List.insertionSort rowLe bank) ∅).1 ++
        unmatchedCashPairs (List.insertionSort rowLe cash)
          (reconcileLoop (List.insertionSort rowLe cash) s.amountTolerance s.dateWindowDays
            (List.insertionSort rowLe bank) ∅).2) :=
  List.perm_insertionSort pairLe _

theorem reconcileSmart_shape {bank cash : List MappedRow} {s : ReconcileSettings}
    {p : MatchPair} (hp : p ∈ (reconcileSmart bank cash s).pairs) :
    PairShape s.amountTolerance s.dateWindowDays p := by
  rcases List.mem_append.mp ((reconcileSmart_pairs_perm bank cash s).mem_iff.mp hp) with h | h
  · exact reconcileLoop_shape _ _ p h
  · exact unmatchedCashPairs_shape h

theorem reconcileSmart_bank_sides (bank cash : List MappedRow) (s : ReconcileSettings) :
    ((reconcileSmart bank cash s).pairs.filterMap MatchPair.bank).Perm bank := by
  refine (List.Perm.filterMap MatchPair.bank (reconcileSmart_pairs_perm bank cash s)).trans ?_
  rw [List.filterMap_append, reconcileLoop_bank_sides, unmatchedCashPairs_bank_sides,
    List.append_nil]
  exact List.perm_insertionSort rowLe bank

theorem reconcileSmart_cash_sides (bank cash : List MappedRow) (s : ReconcileSettings) :
    ((reconcileSmart bank cash s).pairs.filterMap MatchPair.cashbook).Perm cash := by
  refine (List.Perm.filterMap MatchPair.cashbook (reconcileSmart_pairs_perm bank cash s)).trans ?_
  rw [List.filterMap_append, unmatchedCashPairs_cash_sides]
  refine (reconcileLoop_cash_sides _ _).trans ?_
  rw [leftover_empty]
  exact List.perm_insertionSort rowLe cash

/- Counting lemmas. -/

theorem length_filterMap_eq_countP {α β : Type _} (f : α → Option β) :
    ∀ l : List α, (l.filterMap f).length = l.countP (fun a => (f a).isSome) := by
  intro l
  induction l with
  | nil => rfl
  | cons x xs ih =>
    rw [List.filterMap_cons, List.countP_cons]
    rcases hx : f x with _ | b <;> simp [hx, ih]

theorem countP_split {α : Type _} (P Q R : α → Bool) :
    ∀ l : List α,
      (∀ x ∈ l, (P x = true ↔ (Q x = true ∨ R x = true)) ∧ ¬(Q x = true ∧ R x = true)) →
      l.countP P = l.countP Q + l.countP R := by
  intro l
  induction l with
  | nil => intro _; rfl
  | cons x xs ih =>
    intro h
    have hx := h x (List.mem_cons_self x xs)
    have hxs := ih fun y hy => h y (List.mem_cons_of_mem x hy)
    rw [List.countP_cons, List.countP_cons, List.countP_cons]
    by_cases hq : Q x = true
    · have hp : P x = true := hx.1.mpr (Or.inl hq)
      have hr : ¬R x = true := fun hr => hx.2 ⟨hq, hr⟩
      simp [hp, hq, hr, hxs]
      omega
    · by_cases hr : R x = true
      · have hp : P x = true := hx.1.mpr (Or.inr hr)
        simp [hp, hq, hr, hxs]
        omega
      · have hp : ¬P x = true := fun hp => (hx.1.mp hp).elim hq hr
        simp [hp, hq, hr, hxs]

theorem shape_bank_split {tol window : ℚ} {p : MatchPair} (h : PairShape tol window p) :
    ((p.bank.isSome = true) ↔ (p.matched = true ∨ isBankOnlyPair p = true)) ∧
      ¬(p.matched = true ∧ isBankOnlyPair p = true) := by
  rcases h with ⟨b, c, hb, hc, hm, -⟩ | ⟨b, hb, hc, hm, -⟩ | ⟨c, hb, hc, hm, -⟩ <;>
    simp [isBankOnlyPair, hb, hc, hm]

theorem shape_cash_split {tol window : ℚ} {p : MatchPair} (h : PairShape tol window p) :
    ((p.cashbook.isSome = true) ↔ (p.matched = true ∨ isCashOnlyPair p = true)) ∧
      ¬(p.matched = true ∧ isCashOnlyPair p = true) := by
  rcases h with ⟨b, c, hb, hc, hm, -⟩ | ⟨b, hb, hc, hm, -⟩ | ⟨c, hb, hc, hm, -⟩ <;>
    simp [isCashOnlyPair, hb, hc, hm]

/-- C2: the pairs of `reconcileSmart` partition the inputs: twice the
matched-pair count plus the bank-only count plus the cashbook-only count
equals the total number of input transactions, and the cashbook sides of
the pairs are a permutation of the cashbook input — every cashbook
transaction is consumed by exactly one pair, so none appears in more than
one. -/
theorem reconcileSmart_conservation (bank cash : List MappedRow) (s : ReconcileSettings) :
    2 * ((reconcileSmart bank cash s).pairs.countP (fun p => p.matched)) +
        (reconcileSmart bank cash s).pairs.countP isBankOnlyPair +
        (reconcileSmart bank cash s).pairs.countP isCashOnlyPair =
      bank.length + cash.length ∧
    ((reconcileSmart bank cash s).pairs.filterMap MatchPair.cashbook).Perm cash := by
  refine ⟨?_, reconcileSmart_cash_sides bank cash s⟩
  have hbankLen : (reconcileSmart bank cash s).pairs.countP (fun p => p.bank.isSome) =
      bank.length := by
    rw [← length_filterMap_eq_countP]
    exact (reconcileSmart_bank_sides bank cash s).length_eq
  have hcashLen : (reconcileSmart bank cash s).pairs.countP (fun p => p.cashbook.isSome) =
      cash.length := by
    rw [← length_filterMap_eq_countP]
    exact (reconcileSmart_cash_sides bank cash s).length_eq
  have hbsplit := countP_split (fun p => p.bank.isSome) (fun p => p.matched) isBankOnlyPair
    (reconcileSmart bank cash s).pairs
    (fun p hp => shape_bank_split (reconcileSmart_shape hp))
  have hcsplit := countP_split (fun p => p.cashbook.isSome) (fun p => p.matched) isCashOnlyPair
    (reconcileSmart bank cash s).pairs
    (fun p hp => shape_cash_split (reconcileSmart_shape hp))
  omega

/- C3: every produced pair is matched-within-tolerance or one-sided. -/

/-- C3: every `MatchPair` produced by `reconcileSmart` satisfies exactly one
of: (a) both sides present, `matched = true`, `|amountDiff|` within the
amount tolerance and `dateDiffDays` within the date window; (b) exactly one
side present and `matched = false`.  In particular a pair never has both
sides present with `matched = false`. -/
theorem matchPair_invariant (bank cash : List MappedRow) (s : ReconcileSettings)
    (p : MatchPair) (hp : p ∈ (reconcileSmart bank cash s).pairs) :
    Xor'
      (p.bank.isSome = true ∧ p.cashbook.isSome = true ∧ p.matched = true ∧
        |p.amountDiff| ≤ s.amountTolerance ∧ ((p.dateDiffDays : ℕ) : ℚ) ≤ s.dateWindowDays)
      ((p.bank.isSome = true ↔ ¬p.cashbook.isSome = true) ∧ p.matched = false) := by
  rcases reconcileSmart_shape hp with ⟨b, c, hb, hc, hm, -, -, htol, hwin⟩ |
    ⟨b, hb, hc, hm, -, -⟩ | ⟨c, hb, hc, hm, -, -⟩
  · exact Or.inl ⟨⟨by simp [hb], by simp [hc], hm, htol, hwin⟩, fun hB => by simp [hm] at hB⟩
  · exact Or.inr ⟨⟨by simp [hb, hc], hm⟩, fun hA => by simp [hm] at hA⟩
  · exact Or.inr ⟨⟨by simp [hb, hc], hm⟩, fun hA => by simp [hm] at hA⟩

def cashRow7 : MappedRow := ⟨"cashbook-0", Source.cashbook, 0, "01/01/2024", 0, 7, "", []⟩

def cashOnly7 : MatchPair := ⟨"pair-none-" ++ cashRow7.id, none, some cashRow7, false, -7, 0⟩

/-- Witness for C3 at a concrete run: the single cashbook-only pair of
`reconcileSmart [] [cashRow7]`. -/
theorem matchPair_invariant_witness :
    Xor'
      (cashOnly7.bank.isSome = true ∧ cashOnly7.cashbook.isSome = true ∧
        cashOnly7.matched = true ∧ |cashOnly7.amountDiff| ≤ DEFAULT_SETTINGS.amountTolerance ∧
        ((cashOnly7.dateDiffDays : ℕ) : ℚ) ≤ DEFAULT_SETTINGS.dateWindowDays)
      ((cashOnly7.bank.isSome = true ↔ ¬cashOnly7.cashbook.isSome = true) ∧
        cashOnly7.matched = false) :=
  matchPair_invariant [] [cashRow7] DEFAULT_SETTINGS cashOnly7
    (by simp [reconcileSmart, reconcileLoop, unmatchedCashPairs, List.insertionSort,
      List.orderedInsert, cashOnly7, cashRow7])

/- C5: the amountDiff of each pair. -/

def cashRow5 : MappedRow := ⟨"cashbook-0", Source.cashbook, 0, "01/01/2024", 0, 5, "", []⟩

/-- C5 counterexample: for a cashbook-only pair the claim demands
`amountDiff` equal to the lone side's amount with its sign preserved, but
the code stores the negation: the lone cashbook amount 5 produces
`amountDiff = -5`. -/
theorem amountDiff_lone_cash_counterexample :
    ((reconcileSmart [] [cashRow5] DEFAULT_SETTINGS).pairs.map MatchPair.amountDiff) = [-5] ∧
    ((reconcileSmart [] [cashRow5] DEFAULT_SETTINGS).pairs.map
      (fun p => (p.cashbook.map MappedRow.amount).getD 0)) = [5] ∧
    (-5 : ℚ) ≠ 5 := by
  refine ⟨?_, ?_, by norm_num⟩ <;>
    simp [reconcileSmart, reconcileLoop, unmatchedCashPairs, List.insertionSort,
      List.orderedInsert, cashRow5]

/-- C5 amended: for inputs whose amounts are exact 2-decimal values (as the
Normalizer guarantees), every pair of `reconcileSmart` has `amountDiff =
bank.amount - cashbook.amount` when both sides are present, `amountDiff =
bank.amount` (sign preserved) for a bank-only pair, and `amountDiff =
-cashbook.amount` (the negation of the lone side's amount) for a
cashbook-only pair. -/
theorem amountDiff_formula (bank cash : List MappedRow) (s : ReconcileSettings)
    (hbank : ∀ r ∈ bank, isCents r.amount) (hcash : ∀ r ∈ cash, isCents r.amount) :
    ∀ p ∈ (reconcileSmart bank cash s).pairs,
      (∀ b c, p.bank = some b → p.cashbook = some c → p.amountDiff = b.amount - c.amount) ∧
      (∀ b, p.bank = some b → p.cashbook = none → p.amountDiff = b.amount) ∧
      (∀ c, p.bank = none → p.cashbook = some c → p.amountDiff = -c.amount) := by
  intro p hp
  rcases reconcileSmart_shape hp with ⟨b, c, hb, hc, -, had, -, -, -⟩ |
    ⟨b, hb, hc, -, had, -⟩ | ⟨c, hb, hc, -, had, -⟩
  · refine ⟨?_, ?_, ?_⟩
    · intro b' c' hb' hc'
      rw [hb] at hb'
      rw [hc] at hc'
      obtain rfl : b = b' := Option.some_inj.mp hb'
      obtain rfl : c = c' := Option.some_inj.mp hc'
      have hbmem : b ∈ bank := (reconcileSmart_bank_sides bank cash s).mem_iff.mp
        (List.mem_filterMap.mpr ⟨p, hp, hb⟩)
      have hcmem : c ∈ cash := (reconcileSmart_cash_sides bank cash s).mem_iff.mp
        (List.mem_filterMap.mpr ⟨p, hp, hc⟩)
      rw [had, round2_cents (isCents_sub (hbank b hbmem) (hcash c hcmem))]
    · intro b' hb' hc'
      rw [hc] at hc'
      exact absurd hc' (by simp)
    · intro c' hb' hc'
      rw [hb] at hb'
      exact absurd hb' (by simp)
  · refine ⟨?_, ?_, ?_⟩
    · intro b' c' hb' hc'
      rw [hc] at hc'
      exact absurd hc' (by simp)
    · intro b' hb' hc'
      rw [hb] at hb'
      obtain rfl : b = b' := Option.some_inj.mp hb'
      exact had
    · intro c' hb' hc'
      rw [hb] at hb'
      exact absurd hb' (by simp)
  · refine ⟨?_, ?_, ?_⟩
    · intro b' c' hb' hc'
      rw [hb] at hb'
      exact absurd hb' (by simp)
    · intro b' hb' hc'
      rw [hb] at hb'
      exact absurd hb' (by simp)
    · intro c' hb' hc'
      rw [hc] at hc'
      obtain rfl : c = c' := Option.some_inj.mp hc'
      exact had

/-- Witness for the amended C5 theorem: applied to the concrete cashbook-only
run over `cashRow5`. -/
theorem amountDiff_formula_witness :
    (⟨"pair-none-" ++ cashRow5.id, none, some cashRow5, false, -5, 0⟩ : MatchPair).amountDiff =
      -cashRow5.amount :=
  (amountDiff_formula [] [cashRow5] DEFAULT_SETTINGS (by simp)
    (by intro r hr
        rw [List.mem_singleton] at hr
        subst hr
        exact ⟨500, by norm_num [cashRow5]⟩)
    ⟨"pair-none-" ++ cashRow5.id, none, some cashRow5, false, -5, 0⟩
    (by simp [reconcileSmart, reconcileLoop, unmatchedCashPairs, List.insertionSort,
      List.orderedInsert, cashRow5])).2.2 cashRow5 rfl rfl

/- C9: the fuzzy suggestion engine. -/

instance : IsTotal Suggestion suggLe :=
  ⟨fun a b => le_total b.confidence a.confidence⟩

instance : IsTrans Suggestion suggLe :=
  ⟨fun _ _ _ hab hbc => le_trans hbc hab⟩

theorem countP_suggestions_inner (b c : FinancialRecord) :
    ∀ l : List FinancialRecord,
      ((l.filterMap (fun cash =>
        if 40 ≤ aiScore b cash then some (⟨b, cash, min (aiScore b cash) 100⟩ : Suggestion)
        else none)).countP (fun s => s.bank == b && s.cash == c)) =
      if 40 ≤ aiScore b c then l.count c else 0 := by
  intro l
  induction l with
  | nil => simp
  | cons x xs ih =>
    rw [List.filterMap_cons]
    by_cases hsc : 40 ≤ aiScore b x <;> by_cases hxc : x = c
    · subst hxc
      simp [hsc, List.countP_cons, ih, List.count_cons]
    · simp [hsc, hxc, List.countP_cons, ih, List.count_cons]
    · subst hxc
      simp [hsc, List.countP_cons, ih]
    · simp [hsc, hxc, List.countP_cons, ih, List.count_cons]

theorem countP_suggestions_inner_ne {b' b c : FinancialRecord} (hne : b' ≠ b) :
    ∀ l : List FinancialRecord,
      ((l.filterMap (fun cash =>
        if 40 ≤ aiScore b' cash then some (⟨b', cash, min (aiScore b' cash) 100⟩ : Suggestion)
        else none)).countP (fun s => s.bank == b && s.cash == c)) = 0 := by
  intro l
  rw [List.countP_eq_zero]
  intro s hs
  obtain ⟨cash, -, hsome⟩ := List.mem_filterMap.mp hs
  split at hsome
  · obtain rfl := Option.some_inj.mp hsome
    simp [hne]
  · exact absurd hsome (by simp)

theorem sum_map_count_mul {α : Type _} [DecidableEq α] (b : α) (K : ℕ) :
    ∀ l : List α, (l.map (fun a => if a = b then K else 0)).sum = l.count b * K := by
  intro l
  induction l with
  | nil => simp
  | cons x xs ih =>
    rw [List.map_cons, List.sum_cons, ih, List.count_cons]
    by_cases hx : x = b
    · subst hx
      simp [Nat.add_mul, Nat.add_comm]
    · simp [hx, Ne.symm hx]

/-- C9: the fuzzy suggestion engine produces a suggestion for exactly those
unmatched-bank × unmatched-cashbook combinations whose additive score
(`aiScore`: exact amount +60 / near-zero difference +40, same day +20 /
within 3 days +10, shared document-number token +30, string similarity
above 0.8 +15) is at least 40; the output is sorted descending by
confidence; and suggestions never consume transactions — every qualifying
combination is present, with multiplicity the product of the records'
multiplicities, so one transaction may appear in many suggestions. -/
theorem runAISuggestions_spec (records : List FinancialRecord) :
    (∀ b c : FinancialRecord,
      (∃ s ∈ runAISuggestions records, s.bank = b ∧ s.cash = c ∧
        s.confidence = min (aiScore b c) 100) ↔
      (b ∈ records ∧ isUnmatchedBank b = true ∧ c ∈ records ∧ isUnmatchedCash c = true ∧
        40 ≤ aiScore b c)) ∧
    (runAISuggestions records).Sorted suggLe ∧
    (∀ b c : FinancialRecord,
      (runAISuggestions records).countP (fun s => s.bank == b && s.cash == c) =
        if 40 ≤ aiScore b c then
          (records.filter isUnmatchedBank).count b * (records.filter isUnmatchedCash).count c
        else 0) := by
  refine ⟨?_, ?_, ?_⟩
  · intro b c
    constructor
    · rintro ⟨s, hs, hb, hc, -⟩
      simp only [runAISuggestions] at hs
      rw [List.mem_insertionSort] at hs
      obtain ⟨bank, hbank, hsin⟩ := List.mem_flatMap.mp hs
      obtain ⟨cash, hcash, hsome⟩ := List.mem_filterMap.mp hsin
      split at hsome
      · rename_i hge
        obtain rfl := Option.some_inj.mp hsome
        obtain rfl : bank = b := hb
        obtain rfl : cash = c := hc
        exact ⟨(List.mem_filter.mp hbank).1, (List.mem_filter.mp hbank).2,
          (List.mem_filter.mp hcash).1, (List.mem_filter.mp hcash).2, hge⟩
      · exact absurd hsome (by simp)
    · rintro ⟨hbmem, hbum, hcmem, hcum, hge⟩
      refine ⟨⟨b, c, min (aiScore b c) 100⟩, ?_, rfl, rfl, rfl⟩
      simp only [runAISuggestions]
      rw [List.mem_insertionSort]
      refine List.mem_flatMap.mpr ⟨b, List.mem_filter.mpr ⟨hbmem, hbum⟩, ?_⟩
      refine List.mem_filterMap.mpr ⟨c, List.mem_filter.mpr ⟨hcmem, hcum⟩, ?_⟩
      rw [if_pos hge]
  · simp only [runAISuggestions]
    exact List.sorted_insertionSort suggLe _
  · intro b c
    simp only [runAISuggestions]
    rw [(List.perm_insertionSort suggLe _).countP_eq, List.countP_flatMap]
    have hmap : ((records.filter isUnmatchedBank).map
        ((List.countP (fun s => s.bank == b && s.cash == c)) ∘
          (fun bank => (records.filter isUnmatchedCash).filterMap (fun cash =>
            if 40 ≤ aiScore bank cash then
              some (⟨bank, cash, min (aiScore bank cash) 100⟩ : Suggestion)
            else none)))) =
        (records.filter isUnmatchedBank).map (fun bank' =>
          if bank' = b then
            (if 40 ≤ aiScore b c then (records.filter isUnmatchedCash).count c else 0)
          else 0) := by
      refine List.map_congr_left fun bank' _ => ?_
      by_cases hb' : bank' = b
      · subst hb'
        simp only [Function.comp]
        rw [countP_suggestions_inner]
        simp
      · simp only [Function.comp]
        rw [countP_suggestions_inner_ne hb' _, if_neg hb']
    rw [hmap, sum_map_count_mul]
    by_cases hge : 40 ≤ aiScore b c
    · rw [if_pos hge, if_pos hge]
    · rw [if_neg hge, if_neg hge, Nat.mul_zero]
